import Mathlib

/-!
Verification of the 2D affine transform core (src/graphics/transform.rs) and
the mouse wheel raw conversions (src/window/mouse.rs) of the rust-sfml
binding.  The Rust methods are thin wrappers forwarding to the underlying
C library's sfTransform functions; the matrix algebra those functions
implement is modelled here from the specification, over exact real
arithmetic (the single-precision floats of the binary are idealised as
real numbers, so tolerance statements become exact equalities).
-/

/-- A 2D point with real coordinates, modelling sfVector2f / Vector2f. -/
@[ext]
structure V2 where
  x : ℝ
  y : ℝ

/-- An axis-aligned rectangle given by origin and size, modelling
sfFloatRect / FloatRect. -/
@[ext]
structure FloatRect where
  left : ℝ
  top : ℝ
  width : ℝ
  height : ℝ

/-- Modelled from the spec: the sfTransform value wrapped by
Transform(pub ffi::sfTransform) stores a row-major 3x3 matrix; the C
implementation is not in src/.  Field mij is the entry at row i,
column j. -/
@[ext]
structure Transform where
  m00 : ℝ
  m01 : ℝ
  m02 : ℝ
  m10 : ℝ
  m11 : ℝ
  m12 : ℝ
  m20 : ℝ
  m21 : ℝ
  m22 : ℝ

namespace Transform

/-- Modelled from the spec: sfTransform_fromMatrix (not in src/) builds the
transform directly from the nine row-major entries, with no validation;
this is Transform::new. -/
def new (a00 a01 a02 a10 a11 a12 a20 a21 a22 : ℝ) : Transform :=
  ⟨a00, a01, a02, a10, a11, a12, a20, a21, a22⟩

/-- Modelled from the spec: sfTransform_Identity (not in src/), the matrix
with ones on the diagonal and zeros elsewhere; this is
Transform::identity. -/
def identity : Transform :=
  ⟨1, 0, 0, 0, 1, 0, 0, 0, 1⟩

/-- The Rust impl Default for Transform returns Self::identity(). -/
def default : Transform := identity

/-- Modelled from the spec: sfTransform_getMatrix (not in src/) exports the
matrix in the 4x4 homogeneous, column-major form used for interop,
padding the affine 3x3 block with the identity z row and column; this
is Transform::matrix.  The result is the 16-element list in memory
order. -/
def matrix (t : Transform) : List ℝ :=
  [t.m00, t.m10, 0, t.m20,
   t.m01, t.m11, 0, t.m21,
   0, 0, 1, 0,
   t.m02, t.m12, 0, t.m22]

/-- Full 3x3 matrix product; matrix multiplication of the spec. -/
def mul (a b : Transform) : Transform :=
  ⟨a.m00 * b.m00 + a.m01 * b.m10 + a.m02 * b.m20,
   a.m00 * b.m01 + a.m01 * b.m11 + a.m02 * b.m21,
   a.m00 * b.m02 + a.m01 * b.m12 + a.m02 * b.m22,
   a.m10 * b.m00 + a.m11 * b.m10 + a.m12 * b.m20,
   a.m10 * b.m01 + a.m11 * b.m11 + a.m12 * b.m21,
   a.m10 * b.m02 + a.m11 * b.m12 + a.m12 * b.m22,
   a.m20 * b.m00 + a.m21 * b.m10 + a.m22 * b.m20,
   a.m20 * b.m01 + a.m21 * b.m11 + a.m22 * b.m21,
   a.m20 * b.m02 + a.m21 * b.m12 + a.m22 * b.m22⟩

/-- Modelled from the spec: sfTransform_combine (not in src/)
right-multiplies self by other; the value returned here is the new value
of the mutated receiver of Transform::combine. -/
def combine (t other : Transform) : Transform := mul t other

/-- Determinant of the full 3x3 matrix. -/
def det (t : Transform) : ℝ :=
  t.m00 * (t.m11 * t.m22 - t.m12 * t.m21)
    - t.m01 * (t.m10 * t.m22 - t.m12 * t.m20)
    + t.m02 * (t.m10 * t.m21 - t.m11 * t.m20)

/-- Modelled from the spec: sfTransform_getInverse (not in src/) computes
the matrix inverse, returning the identity transform when the matrix is
singular (determinant zero); this is Transform::inverse.  The
non-singular branch is the classical adjugate-over-determinant
inverse. -/
noncomputable def inverse (t : Transform) : Transform :=
  open Classical in
  if t.det = 0 then identity else
    ⟨(t.m11 * t.m22 - t.m12 * t.m21) / t.det,
     -(t.m01 * t.m22 - t.m02 * t.m21) / t.det,
     (t.m01 * t.m12 - t.m02 * t.m11) / t.det,
     -(t.m10 * t.m22 - t.m12 * t.m20) / t.det,
     (t.m00 * t.m22 - t.m02 * t.m20) / t.det,
     -(t.m00 * t.m12 - t.m02 * t.m10) / t.det,
     (t.m10 * t.m21 - t.m11 * t.m20) / t.det,
     -(t.m00 * t.m21 - t.m01 * t.m20) / t.det,
     (t.m00 * t.m11 - t.m01 * t.m10) / t.det⟩

/-- Modelled from the spec: sfTransform_translate (not in src/) combines
the current transform with a translation by (x, y); this is
Transform::translate. -/
def translate (t : Transform) (x y : ℝ) : Transform :=
  mul t ⟨1, 0, x, 0, 1, y, 0, 0, 1⟩

/-- Cosine of an angle given in degrees, as the C library measures
rotation angles. -/
noncomputable def cosd (angle : ℝ) : ℝ := Real.cos (angle * Real.pi / 180)

/-- Sine of an angle given in degrees. -/
noncomputable def sind (angle : ℝ) : ℝ := Real.sin (angle * Real.pi / 180)

/-- Modelled from the spec: sfTransform_rotate (not in src/) combines the
current transform with a counter-clockwise rotation about the origin,
angle in degrees; this is Transform::rotate. -/
noncomputable def rotate (t : Transform) (angle : ℝ) : Transform :=
  mul t ⟨cosd angle, -sind angle, 0, sind angle, cosd angle, 0, 0, 0, 1⟩

/-- Modelled from the spec: sfTransform_rotateWithCenter (not in src/)
combines the current transform with the single fused matrix of a
rotation about the center (cx, cy); this is
Transform::rotate_with_center. -/
noncomputable def rotate_with_center (t : Transform) (angle cx cy : ℝ) :
    Transform :=
  mul t ⟨cosd angle, -sind angle, cx * (1 - cosd angle) + cy * sind angle,
         sind angle, cosd angle, cy * (1 - cosd angle) - cx * sind angle,
         0, 0, 1⟩

/-- Modelled from the spec: sfTransform_scale (not in src/) combines the
current transform with a non-uniform scaling about the origin; this is
Transform::scale. -/
def scale (t : Transform) (sx sy : ℝ) : Transform :=
  mul t ⟨sx, 0, 0, 0, sy, 0, 0, 0, 1⟩

/-- Modelled from the spec: sfTransform_scaleWithCenter (not in src/)
combines the current transform with the fused matrix of a scaling about
the center (cx, cy); this is Transform::scale_with_center. -/
def scale_with_center (t : Transform) (sx sy cx cy : ℝ) : Transform :=
  mul t ⟨sx, 0, cx * (1 - sx), 0, sy, cy * (1 - sy), 0, 0, 1⟩

/-- Modelled from the spec: sfTransform_transformPoint (not in src/)
applies the affine part of the map to a 2D point; this is
Transform::transform_point. -/
def transform_point (t : Transform) (p : V2) : V2 :=
  ⟨t.m00 * p.x + t.m01 * p.y + t.m02,
   t.m10 * p.x + t.m11 * p.y + t.m12⟩

/-- Modelled from the spec: sfTransform_transformRect (not in src/) maps
the four corners of an axis-aligned rectangle and returns their
axis-aligned bounding rectangle; this is Transform::transform_rect. -/
noncomputable def transform_rect (t : Transform) (r : FloatRect) :
    FloatRect :=
  let p1 := t.transform_point ⟨r.left, r.top⟩
  let p2 := t.transform_point ⟨r.left, r.top + r.height⟩
  let p3 := t.transform_point ⟨r.left + r.width, r.top⟩
  let p4 := t.transform_point ⟨r.left + r.width, r.top + r.height⟩
  let minx := min (min p1.x p2.x) (min p3.x p4.x)
  let miny := min (min p1.y p2.y) (min p3.y p4.y)
  let maxx := max (max p1.x p2.x) (max p3.x p4.x)
  let maxy := max (max p1.y p2.y) (max p3.y p4.y)
  ⟨minx, miny, maxx - minx, maxy - miny⟩

/-- The Rust method Transform::inverse takes the receiver by mutable
reference but its body only passes a shared borrow of self.0 to a
const-pointer foreign function, so the receiver is unchanged: the method
maps the pre-state to the returned transform and the identical
post-state. -/
noncomputable def inverseM (t : Transform) : Transform × Transform :=
  (inverse t, t)

/-- The Rust method Transform::transform_point takes the receiver by
mutable reference but only reads self.0 through a shared borrow, so the
post-state equals the pre-state. -/
def transform_pointM (t : Transform) (p : V2) : V2 × Transform :=
  (transform_point t p, t)

/-- The Rust method Transform::transform_rect takes the receiver by
mutable reference but only reads self.0 through a shared borrow, so the
post-state equals the pre-state. -/
noncomputable def transform_rectM (t : Transform) (r : FloatRect) :
    FloatRect × Transform :=
  (transform_rect t r, t)

/-- A transform is affine when its bottom row is (0, 0, 1), the spec's
data-model invariant for every transform the exposed combinators
produce. -/
def IsAffine (t : Transform) : Prop :=
  t.m20 = 0 ∧ t.m21 = 0 ∧ t.m22 = 1

end Transform

/-- A single step of building a transform with the mutating combinators,
as quantified over by the inverse law of the spec. -/
inductive BuildOp where
  | translate (x y : ℝ)
  | rotate (angle : ℝ)
  | scale (sx sy : ℝ)

/-- Applying one combinator call to the accumulated transform. -/
noncomputable def applyOp (t : Transform) : BuildOp → Transform
  | .translate x y => t.translate x y
  | .rotate angle => t.rotate angle
  | .scale sx sy => t.scale sx sy

/-- The transform built from identity by a finite call sequence. -/
noncomputable def build (ops : List BuildOp) : Transform :=
  ops.foldl applyOp Transform.identity

/-- A build step is non-degenerate when it is not a scaling by a zero
factor. -/
def BuildOp.nondegenerate : BuildOp → Prop
  | .scale sx sy => sx ≠ 0 ∧ sy ≠ 0
  | _ => True

/-- The mouse wheel enum of src/window/mouse.rs. -/
inductive Wheel where
  | Vertical
  | Horizontal
  deriving DecidableEq

/-- The raw sfMouseWheel enum of the C API, whose two identifiers are
exactly the ones matched in src/window/mouse.rs. -/
inductive SfMouseWheel where
  | sfMouseVerticalWheel
  | sfMouseHorizontalWheel
  deriving DecidableEq

namespace Wheel

/-- The Raw impl for Wheel in src/window/mouse.rs. -/
def raw : Wheel → SfMouseWheel
  | .Vertical => .sfMouseVerticalWheel
  | .Horizontal => .sfMouseHorizontalWheel

/-- The FromRaw impl for Wheel in src/window/mouse.rs. -/
def from_raw : SfMouseWheel → Wheel
  | .sfMouseVerticalWheel => .Vertical
  | .sfMouseHorizontalWheel => .Horizontal

end Wheel

/-- The four corners of an axis-aligned rectangle, in the order the
bounding-box computation visits them. -/
def corners (r : FloatRect) : List V2 :=
  [⟨r.left, r.top⟩, ⟨r.left, r.top + r.height⟩,
   ⟨r.left + r.width, r.top⟩, ⟨r.left + r.width, r.top + r.height⟩]

/-- Containment of a point in an axis-aligned rectangle. -/
def FloatRect.contains (r : FloatRect) (p : V2) : Prop :=
  r.left ≤ p.x ∧ p.x ≤ r.left + r.width ∧
    r.top ≤ p.y ∧ p.y ≤ r.top + r.height

section Helpers

/-- The identity transform fixes every point. -/
lemma transform_point_identity (p : V2) :
    Transform.identity.transform_point p = p := by
  ext <;> simp [Transform.transform_point, Transform.identity]

/-- On a singular matrix, inversion falls back to the identity. -/
lemma inverse_of_det_eq_zero (t : Transform) (h : t.det = 0) :
    t.inverse = Transform.identity := by
  unfold Transform.inverse
  rw [if_pos h]

/-- On a non-singular matrix, the modelled inverse is a genuine right
inverse. -/
lemma mul_inverse_of_det_ne_zero (t : Transform) (h : t.det ≠ 0) :
    t.mul t.inverse = Transform.identity := by
  have hd : t.det =
      t.m00 * (t.m11 * t.m22 - t.m12 * t.m21)
        - t.m01 * (t.m10 * t.m22 - t.m12 * t.m20)
        + t.m02 * (t.m10 * t.m21 - t.m11 * t.m20) := rfl
  unfold Transform.inverse
  rw [if_neg h]
  ext <;> simp only [Transform.mul, Transform.identity] <;> field_simp <;>
    (try rw [hd]) <;> ring

end Helpers

/-- C1: as stated the claim is false: combine makes the OTHER operand apply
first.  At A = translate by (1,0) and B = scale by 2, the combined
transform sends the origin to (1,0), while applying A first and then B
sends it to (2,0). -/
theorem combine_self_first_counterexample :
    ((Transform.new 1 0 1 0 1 0 0 0 1).combine
        (Transform.new 2 0 0 0 2 0 0 0 1)).transform_point ⟨0, 0⟩
      ≠ (Transform.new 2 0 0 0 2 0 0 0 1).transform_point
          ((Transform.new 1 0 1 0 1 0 0 0 1).transform_point ⟨0, 0⟩) := by
  intro h
  have hx := congrArg V2.x h
  norm_num [Transform.combine, Transform.mul, Transform.transform_point,
    Transform.new] at hx

/-- C1 (amended): combine(B) on A right-multiplies, so applying the result
to a point applies B first and then the original A, whenever B is
affine. -/
theorem combine_applies_other_first (A B : Transform) (P : V2)
    (hB : B.IsAffine) :
    (A.combine B).transform_point P
      = A.transform_point (B.transform_point P) := by
  obtain ⟨h1, h2, h3⟩ := hB
  ext <;>
    simp [Transform.combine, Transform.mul, Transform.transform_point,
      h1, h2, h3] <;>
    ring

/-- C1 witness: the amended order law at the concrete pair used in the
counterexample. -/
theorem combine_applies_other_first_witness :
    (Transform.new 2 0 0 0 2 0 0 0 1).IsAffine ∧
      ((Transform.new 1 0 1 0 1 0 0 0 1).combine
          (Transform.new 2 0 0 0 2 0 0 0 1)).transform_point ⟨0, 0⟩
        = (Transform.new 1 0 1 0 1 0 0 0 1).transform_point
            ((Transform.new 2 0 0 0 2 0 0 0 1).transform_point ⟨0, 0⟩) :=
  ⟨⟨rfl, rfl, rfl⟩,
   combine_applies_other_first _ _ _ ⟨rfl, rfl, rfl⟩⟩

/-- C2: as stated over every rectangle the claim is false: a rectangle
with negative width is renormalised by the corner bounding box, so the
identity does not fix it. -/
theorem identity_rect_counterexample :
    Transform.identity.transform_rect ⟨0, 0, -1, 0⟩
      ≠ (⟨0, 0, -1, 0⟩ : FloatRect) := by
  intro h
  have hl := congrArg FloatRect.left h
  norm_num [Transform.transform_rect, Transform.transform_point,
    Transform.identity, min_def, max_def] at hl

/-- C2 (amended): the identity transform fixes every point, fixes every
rectangle with non-negative width and height, and the default transform
is the identity. -/
theorem identity_law :
    (∀ P : V2, Transform.identity.transform_point P = P) ∧
      (∀ R : FloatRect, 0 ≤ R.width → 0 ≤ R.height →
        Transform.identity.transform_rect R = R) ∧
      Transform.default = Transform.identity := by
  refine ⟨transform_point_identity, fun R hw hh => ?_, rfl⟩
  have hx : R.left ≤ R.left + R.width := by linarith
  have hy : R.top ≤ R.top + R.height := by linarith
  ext <;>
    simp [Transform.transform_rect, Transform.transform_point,
      Transform.identity, min_self, max_self, min_eq_left hx,
      max_eq_right hx, min_eq_left hy, max_eq_right hy]

/-- C2 witness: the identity law at the point (7, 9) and the rectangle
(1, 2, 3, 4). -/
theorem identity_law_witness :
    (0 : ℝ) ≤ 3 ∧ (0 : ℝ) ≤ 4 ∧
      Transform.identity.transform_rect ⟨1, 2, 3, 4⟩
        = (⟨1, 2, 3, 4⟩ : FloatRect) :=
  ⟨by norm_num, by norm_num,
   identity_law.2.1 ⟨1, 2, 3, 4⟩ (by norm_num) (by norm_num)⟩

/-- C4: inversion of any singular transform returns the identity, and in
particular the transform built by scaling the identity by (0, 0) inverts
to the identity exactly. -/
theorem singular_inverse_identity :
    (∀ T : Transform, T.det = 0 → T.inverse = Transform.identity) ∧
      (Transform.identity.scale 0 0).inverse = Transform.identity := by
  refine ⟨inverse_of_det_eq_zero, inverse_of_det_eq_zero _ ?_⟩
  norm_num [Transform.scale, Transform.mul, Transform.identity,
    Transform.det]

/-- C4 witness: a concrete singular matrix whose inverse is the
identity. -/
theorem singular_inverse_identity_witness :
    (Transform.new 1 2 3 4 5 6 7 8 9).det = 0 ∧
      (Transform.new 1 2 3 4 5 6 7 8 9).inverse = Transform.identity :=
  ⟨by norm_num [Transform.det, Transform.new],
   singular_inverse_identity.1 _
     (by norm_num [Transform.det, Transform.new])⟩

/-- C7: building a transform from nine row-major entries and exporting it
reproduces the 3x3 affine block exactly, padded to the 4x4 homogeneous
column-major layout. -/
theorem matrix_round_trip (a00 a01 a02 a10 a11 a12 a20 a21 a22 : ℝ) :
    (Transform.new a00 a01 a02 a10 a11 a12 a20 a21 a22).matrix
      = [a00, a10, 0, a20, a01, a11, 0, a21,
         0, 0, 1, 0, a02, a12, 0, a22] := rfl

/-- C8: every operation is a total function of its inputs; the only
conditional operation, inversion, returns a defined value on every
transform: the identity on a singular input and a genuine right inverse
otherwise. -/
theorem operations_total (T : Transform) :
    (T.det = 0 ∧ T.inverse = Transform.identity) ∨
      (T.det ≠ 0 ∧ T.mul T.inverse = Transform.identity) := by
  by_cases h : T.det = 0
  · exact Or.inl ⟨h, inverse_of_det_eq_zero T h⟩
  · exact Or.inr ⟨h, mul_inverse_of_det_ne_zero T h⟩

/-- C9: the methods inverse, transform_point and transform_rect leave the
receiver unchanged: their bodies only read self through a shared
borrow passed to a const foreign function. -/
theorem receiver_unchanged (t : Transform) (p : V2) (r : FloatRect) :
    t.inverseM.2 = t ∧ (t.transform_pointM p).2 = t ∧
      (t.transform_rectM r).2 = t :=
  ⟨rfl, rfl, rfl⟩

/-- C10: the raw conversions of the mouse wheel enum are mutually inverse
bijections between the two variants and the two raw identifiers. -/
theorem wheel_raw_bijection :
    (∀ w : Wheel, Wheel.from_raw w.raw = w) ∧
      (∀ r : SfMouseWheel, (Wheel.from_raw r).raw = r) := by
  constructor <;> intro x <;> cases x <;> rfl

section DetHelpers

/-- The determinant is multiplicative over the modelled product. -/
lemma det_mul (a b : Transform) : (a.mul b).det = a.det * b.det := by
  simp only [Transform.mul, Transform.det]
  ring

/-- Translation preserves the determinant. -/
lemma det_translate (t : Transform) (x y : ℝ) :
    (t.translate x y).det = t.det := by
  unfold Transform.translate
  rw [det_mul]
  norm_num [Transform.det]

/-- The rotation matrix has unit determinant. -/
lemma det_rot_matrix (a : ℝ) :
    (Transform.mk (Transform.cosd a) (-Transform.sind a) 0
        (Transform.sind a) (Transform.cosd a) 0 0 0 1).det = 1 := by
  simp only [Transform.det, Transform.cosd, Transform.sind]
  linear_combination Real.sin_sq_add_cos_sq (a * Real.pi / 180)

/-- Rotation preserves the determinant. -/
lemma det_rotate (t : Transform) (a : ℝ) :
    (t.rotate a).det = t.det := by
  unfold Transform.rotate
  rw [det_mul, det_rot_matrix, mul_one]

/-- Scaling multiplies the determinant by the product of the factors. -/
lemma det_scale (t : Transform) (sx sy : ℝ) :
    (t.scale sx sy).det = t.det * (sx * sy) := by
  unfold Transform.scale
  rw [det_mul]
  simp only [Transform.det]
  ring

/-- A non-degenerate build step keeps the determinant non-zero. -/
lemma det_applyOp_ne_zero (t : Transform) (op : BuildOp)
    (hop : op.nondegenerate) (h : t.det ≠ 0) :
    (applyOp t op).det ≠ 0 := by
  cases op with
  | translate x y => simpa [applyOp, det_translate] using h
  | rotate a => simpa [applyOp, det_rotate] using h
  | scale sx sy =>
    obtain ⟨hx, hy⟩ := hop
    have hne := mul_ne_zero h (mul_ne_zero hx hy)
    simpa [applyOp, det_scale] using hne

/-- Folding non-degenerate build steps keeps the determinant non-zero. -/
lemma det_foldl_ne_zero (ops : List BuildOp) :
    ∀ t : Transform, (∀ op ∈ ops, op.nondegenerate) → t.det ≠ 0 →
      (ops.foldl applyOp t).det ≠ 0 := by
  induction ops with
  | nil => intro t _ ht; simpa using ht
  | cons op ops ih =>
    intro t h ht
    simp only [List.foldl_cons]
    exact ih _ (fun o ho => h o (List.mem_cons_of_mem _ ho))
      (det_applyOp_ne_zero t op (h op (List.mem_cons_self _ _)) ht)

/-- A transform built from non-degenerate steps is non-singular. -/
lemma det_build_ne_zero (ops : List BuildOp)
    (h : ∀ op ∈ ops, op.nondegenerate) : (build ops).det ≠ 0 :=
  det_foldl_ne_zero ops Transform.identity h
    (by norm_num [Transform.det, Transform.identity])

end DetHelpers

section AngleHelpers

/-- The degree cosine of 90 is zero. -/
lemma cosd_ninety : Transform.cosd 90 = 0 := by
  unfold Transform.cosd
  rw [show (90 : ℝ) * Real.pi / 180 = Real.pi / 2 by ring]
  exact Real.cos_pi_div_two

/-- The degree sine of 90 is one. -/
lemma sind_ninety : Transform.sind 90 = 1 := by
  unfold Transform.sind
  rw [show (90 : ℝ) * Real.pi / 180 = Real.pi / 2 by ring]
  exact Real.sin_pi_div_two

/-- The degree cosine of 45 is half the square root of two. -/
lemma cosd_fortyfive : Transform.cosd 45 = Real.sqrt 2 / 2 := by
  unfold Transform.cosd
  rw [show (45 : ℝ) * Real.pi / 180 = Real.pi / 4 by ring]
  exact Real.cos_pi_div_four

/-- The degree sine of 45 is half the square root of two. -/
lemma sind_fortyfive : Transform.sind 45 = Real.sqrt 2 / 2 := by
  unfold Transform.sind
  rw [show (45 : ℝ) * Real.pi / 180 = Real.pi / 4 by ring]
  exact Real.sin_pi_div_four

end AngleHelpers

/-- C3: a transform built from translate, rotate and scale steps with
non-zero scale factors, combined with its own inverse, fixes every
point (exactly in the real-number model, hence a fortiori within the
1e-5 tolerance of the spec). -/
theorem inverse_law (ops : List BuildOp)
    (h : ∀ op ∈ ops, op.nondegenerate) (P : V2) :
    ((build ops).combine (build ops).inverse).transform_point P = P := by
  have hd := det_build_ne_zero ops h
  unfold Transform.combine
  rw [mul_inverse_of_det_ne_zero _ hd]
  exact transform_point_identity P

/-- C3 witness: the inverse law for the concrete build sequence
translate(3,4), scale(2,5), rotate(30) at the point (6,7). -/
theorem inverse_law_witness :
    (∀ op ∈ [BuildOp.translate 3 4, BuildOp.scale 2 5,
        BuildOp.rotate 30], op.nondegenerate) ∧
      ((build [BuildOp.translate 3 4, BuildOp.scale 2 5,
            BuildOp.rotate 30]).combine
          (build [BuildOp.translate 3 4, BuildOp.scale 2 5,
            BuildOp.rotate 30]).inverse).transform_point ⟨6, 7⟩
        = ⟨6, 7⟩ := by
  have hops : ∀ op ∈ [BuildOp.translate 3 4, BuildOp.scale 2 5,
      BuildOp.rotate 30], op.nondegenerate := by
    intro op hop
    simp only [List.mem_cons, List.not_mem_nil, or_false] at hop
    rcases hop with hh | hh | hh <;> subst hh <;>
      norm_num [BuildOp.nondegenerate]
  exact ⟨hops, inverse_law _ hops ⟨6, 7⟩⟩

/-- C5: as stated the claim is false: the fused rotation about a center
does not match the call sequence translate(-cx,-cy), rotate, then
translate(cx,cy).  At angle 90 about center (1,0), the fused transform
sends the origin to x-coordinate 1 while the claimed sequence sends it
to x-coordinate -1, a gap of 2, far beyond the 1e-5 tolerance. -/
theorem rotate_with_center_counterexample :
    1e-5 <
      |((Transform.identity.rotate_with_center 90 1 0).transform_point
            ⟨0, 0⟩).x
        - ((((Transform.identity.translate (-1) 0).rotate 90).translate
              1 0).transform_point ⟨0, 0⟩).x| := by
  have h1 : ((Transform.identity.rotate_with_center 90 1 0).transform_point
      ⟨0, 0⟩).x = 1 := by
    norm_num [Transform.rotate_with_center, Transform.mul,
      Transform.identity, Transform.transform_point, cosd_ninety,
      sind_ninety]
  have h2 : ((((Transform.identity.translate (-1) 0).rotate 90).translate
      1 0).transform_point ⟨0, 0⟩).x = -1 := by
    norm_num [Transform.translate, Transform.rotate, Transform.mul,
      Transform.identity, Transform.transform_point, cosd_ninety,
      sind_ninety]
  rw [h1, h2, show (1 : ℝ) - (-1) = 2 by norm_num,
    abs_of_pos (by norm_num : (0 : ℝ) < 2)]
  norm_num

/-- C5 (amended): the fused rotation about a center equals the call
sequence translate(cx,cy), rotate(angle), translate(-cx,-cy); in
application order a point is first translated by (-cx,-cy), then
rotated, then translated back by (cx,cy). -/
theorem rotate_with_center_eq_sequence (T : Transform) (a cx cy : ℝ) :
    T.rotate_with_center a cx cy
      = ((T.translate cx cy).rotate a).translate (-cx) (-cy) := by
  ext <;>
    simp only [Transform.rotate_with_center, Transform.translate,
      Transform.rotate, Transform.mul] <;>
    ring

section MinMaxHelpers

/-- The four-way minimum is below each of its arguments. -/
lemma min4_le (a b c d : ℝ) :
    min (min a b) (min c d) ≤ a ∧ min (min a b) (min c d) ≤ b ∧
      min (min a b) (min c d) ≤ c ∧ min (min a b) (min c d) ≤ d :=
  ⟨le_trans (min_le_left _ _) (min_le_left _ _),
   le_trans (min_le_left _ _) (min_le_right _ _),
   le_trans (min_le_right _ _) (min_le_left _ _),
   le_trans (min_le_right _ _) (min_le_right _ _)⟩

/-- The four-way maximum is above each of its arguments. -/
lemma le_max4 (a b c d : ℝ) :
    a ≤ max (max a b) (max c d) ∧ b ≤ max (max a b) (max c d) ∧
      c ≤ max (max a b) (max c d) ∧ d ≤ max (max a b) (max c d) :=
  ⟨le_trans (le_max_left _ _) (le_max_left _ _),
   le_trans (le_max_right _ _) (le_max_left _ _),
   le_trans (le_max_left _ _) (le_max_right _ _),
   le_trans (le_max_right _ _) (le_max_right _ _)⟩

/-- Evaluation of a four-way minimum at an attained lower bound. -/
lemma min4_eq (a b c d m : ℝ) (ha : m ≤ a) (hb : m ≤ b) (hc : m ≤ c)
    (hd : m ≤ d) (he : a = m ∨ b = m ∨ c = m ∨ d = m) :
    min (min a b) (min c d) = m := by
  refine le_antisymm ?_ (le_min (le_min ha hb) (le_min hc hd))
  obtain ⟨l1, l2, l3, l4⟩ := min4_le a b c d
  rcases he with h | h | h | h
  · exact h ▸ l1
  · exact h ▸ l2
  · exact h ▸ l3
  · exact h ▸ l4

/-- Evaluation of a four-way maximum at an attained upper bound. -/
lemma max4_eq (a b c d m : ℝ) (ha : a ≤ m) (hb : b ≤ m) (hc : c ≤ m)
    (hd : d ≤ m) (he : a = m ∨ b = m ∨ c = m ∨ d = m) :
    max (max a b) (max c d) = m := by
  refine le_antisymm (max_le (max_le ha hb) (max_le hc hd)) ?_
  obtain ⟨l1, l2, l3, l4⟩ := le_max4 a b c d
  rcases he with h | h | h | h
  · exact h ▸ l1
  · exact h ▸ l2
  · exact h ▸ l3
  · exact h ▸ l4

end MinMaxHelpers

/-- C6: transform_rect returns the axis-aligned bounding rectangle of the
four transformed corners: it contains each mapped corner and is
contained in every axis-aligned rectangle that does; and the unit
rectangle (0,0,1,1) under the 45-degree center-preserving rotation about
(1/2, 1/2) becomes a rectangle of width and height the square root of
two whose center stays at (1/2, 1/2). -/
theorem transform_rect_bounding_box :
    (∀ (T : Transform) (R : FloatRect),
        (∀ c ∈ corners R,
            (T.transform_rect R).contains (T.transform_point c)) ∧
          ∀ S : FloatRect,
            (∀ c ∈ corners R, S.contains (T.transform_point c)) →
              S.left ≤ (T.transform_rect R).left ∧
                (T.transform_rect R).left + (T.transform_rect R).width
                    ≤ S.left + S.width ∧
                S.top ≤ (T.transform_rect R).top ∧
                (T.transform_rect R).top + (T.transform_rect R).height
                    ≤ S.top + S.height) ∧
      ((Transform.identity.rotate_with_center 45 (1/2)
            (1/2)).transform_rect ⟨0, 0, 1, 1⟩).width = Real.sqrt 2 ∧
      ((Transform.identity.rotate_with_center 45 (1/2)
            (1/2)).transform_rect ⟨0, 0, 1, 1⟩).height = Real.sqrt 2 ∧
      ((Transform.identity.rotate_with_center 45 (1/2)
              (1/2)).transform_rect ⟨0, 0, 1, 1⟩).left
          + ((Transform.identity.rotate_with_center 45 (1/2)
              (1/2)).transform_rect ⟨0, 0, 1, 1⟩).width / 2 = 1/2 ∧
      ((Transform.identity.rotate_with_center 45 (1/2)
              (1/2)).transform_rect ⟨0, 0, 1, 1⟩).top
          + ((Transform.identity.rotate_with_center 45 (1/2)
              (1/2)).transform_rect ⟨0, 0, 1, 1⟩).height / 2 = 1/2 := by
  have key : ∀ u v : ℝ, u + (v - u) = v := fun u v => by ring
  have hgen : ∀ (T : Transform) (R : FloatRect),
      (∀ c ∈ corners R,
          (T.transform_rect R).contains (T.transform_point c)) ∧
        ∀ S : FloatRect,
          (∀ c ∈ corners R, S.contains (T.transform_point c)) →
            S.left ≤ (T.transform_rect R).left ∧
              (T.transform_rect R).left + (T.transform_rect R).width
                  ≤ S.left + S.width ∧
              S.top ≤ (T.transform_rect R).top ∧
              (T.transform_rect R).top + (T.transform_rect R).height
                  ≤ S.top + S.height := by
    intro T R
    constructor
    · intro c hc
      simp only [corners, List.mem_cons, List.not_mem_nil, or_false] at hc
      simp only [Transform.transform_rect, FloatRect.contains]
      rcases hc with h | h | h | h <;> subst h <;>
        refine ⟨?_, ?_, ?_, ?_⟩ <;> (try simp only [key]) <;>
        simp [min_le_iff, le_max_iff]
    · intro S hS
      have h1 := hS ⟨R.left, R.top⟩ (by simp [corners])
      have h2 := hS ⟨R.left, R.top + R.height⟩ (by simp [corners])
      have h3 := hS ⟨R.left + R.width, R.top⟩ (by simp [corners])
      have h4 := hS ⟨R.left + R.width, R.top + R.height⟩ (by simp [corners])
      obtain ⟨a1, b1, c1, d1⟩ := h1
      obtain ⟨a2, b2, c2, d2⟩ := h2
      obtain ⟨a3, b3, c3, d3⟩ := h3
      obtain ⟨a4, b4, c4, d4⟩ := h4
      simp only [Transform.transform_rect]
      refine ⟨le_min (le_min a1 a2) (le_min a3 a4), ?_,
        le_min (le_min c1 c2) (le_min c3 c4), ?_⟩
      · rw [key]
        exact max_le (max_le b1 b2) (max_le b3 b4)
      · rw [key]
        exact max_le (max_le d1 d2) (max_le d3 d4)
  have hq : (0 : ℝ) ≤ Real.sqrt 2 := Real.sqrt_nonneg 2
  have h1 : (Transform.identity.rotate_with_center 45 (1/2)
      (1/2)).transform_point ⟨0, 0⟩ = ⟨1/2, 1/2 - Real.sqrt 2 / 2⟩ := by
    ext <;>
      simp [Transform.rotate_with_center, Transform.mul,
        Transform.identity, Transform.transform_point, cosd_fortyfive,
        sind_fortyfive] <;> ring
  have h2 : (Transform.identity.rotate_with_center 45 (1/2)
      (1/2)).transform_point ⟨0, 1⟩ = ⟨1/2 - Real.sqrt 2 / 2, 1/2⟩ := by
    ext <;>
      simp [Transform.rotate_with_center, Transform.mul,
        Transform.identity, Transform.transform_point, cosd_fortyfive,
        sind_fortyfive] <;> ring
  have h3 : (Transform.identity.rotate_with_center 45 (1/2)
      (1/2)).transform_point ⟨1, 0⟩ = ⟨1/2 + Real.sqrt 2 / 2, 1/2⟩ := by
    ext <;>
      simp [Transform.rotate_with_center, Transform.mul,
        Transform.identity, Transform.transform_point, cosd_fortyfive,
        sind_fortyfive] <;> ring
  have h4 : (Transform.identity.rotate_with_center 45 (1/2)
      (1/2)).transform_point ⟨1, 1⟩ = ⟨1/2, 1/2 + Real.sqrt 2 / 2⟩ := by
    ext <;>
      simp [Transform.rotate_with_center, Transform.mul,
        Transform.identity, Transform.transform_point, cosd_fortyfive,
        sind_fortyfive] <;> ring
  have hin1 : (⟨0, 0⟩ : V2) ∈ corners ⟨0, 0, 1, 1⟩ := by simp [corners]
  have hin2 : (⟨0, 1⟩ : V2) ∈ corners ⟨0, 0, 1, 1⟩ := by simp [corners]
  have hin3 : (⟨1, 0⟩ : V2) ∈ corners ⟨0, 0, 1, 1⟩ := by simp [corners]
  have hin4 : (⟨1, 1⟩ : V2) ∈ corners ⟨0, 0, 1, 1⟩ := by simp [corners]
  have hc1 := (hgen (Transform.identity.rotate_with_center 45 (1/2) (1/2))
    ⟨0, 0, 1, 1⟩).1 _ hin1
  have hc2 := (hgen (Transform.identity.rotate_with_center 45 (1/2) (1/2))
    ⟨0, 0, 1, 1⟩).1 _ hin2
  have hc3 := (hgen (Transform.identity.rotate_with_center 45 (1/2) (1/2))
    ⟨0, 0, 1, 1⟩).1 _ hin3
  have hc4 := (hgen (Transform.identity.rotate_with_center 45 (1/2) (1/2))
    ⟨0, 0, 1, 1⟩).1 _ hin4
  rw [h1] at hc1
  rw [h2] at hc2
  rw [h3] at hc3
  rw [h4] at hc4
  simp only [FloatRect.contains] at hc1 hc2 hc3 hc4
  obtain ⟨u1, u2, u3, u4⟩ := hc1
  obtain ⟨v1, v2, v3, v4⟩ := hc2
  obtain ⟨w1, w2, w3, w4⟩ := hc3
  obtain ⟨z1, z2, z3, z4⟩ := hc4
  have hS0 : ∀ c ∈ corners ⟨0, 0, 1, 1⟩,
      FloatRect.contains
        ⟨1/2 - Real.sqrt 2 / 2, 1/2 - Real.sqrt 2 / 2,
          Real.sqrt 2, Real.sqrt 2⟩
        ((Transform.identity.rotate_with_center 45 (1/2)
            (1/2)).transform_point c) := by
    intro c hc
    simp only [corners, List.mem_cons, List.not_mem_nil, or_false,
      zero_add] at hc
    rcases hc with h | h | h | h
    · subst h
      rw [h1]
      simp only [FloatRect.contains]
      refine ⟨by linarith only [hq], by linarith only [hq],
        by linarith only [hq], by linarith only [hq]⟩
    · subst h
      rw [h2]
      simp only [FloatRect.contains]
      refine ⟨by linarith only [hq], by linarith only [hq],
        by linarith only [hq], by linarith only [hq]⟩
    · subst h
      rw [h3]
      simp only [FloatRect.contains]
      refine ⟨by linarith only [hq], by linarith only [hq],
        by linarith only [hq], by linarith only [hq]⟩
    · subst h
      rw [h4]
      simp only [FloatRect.contains]
      refine ⟨by linarith only [hq], by linarith only [hq],
        by linarith only [hq], by linarith only [hq]⟩
  have hmin := (hgen (Transform.identity.rotate_with_center 45 (1/2) (1/2))
    ⟨0, 0, 1, 1⟩).2 _ hS0
  obtain ⟨m1, m2, m3, m4⟩ := hmin
  set B := (Transform.identity.rotate_with_center 45 (1/2)
    (1/2)).transform_rect (⟨0, 0, 1, 1⟩ : FloatRect) with hB
  dsimp only at m1 m2 m3 m4
  refine ⟨hgen, by linarith only [u1, u2, u3, u4, v1, v2, v3, v4, w1, w2, w3, w4, z1, z2, z3, z4,
      m1, m2, m3, m4, hq], by linarith only [u1, u2, u3, u4, v1, v2, v3, v4, w1, w2, w3, w4, z1, z2, z3, z4,
      m1, m2, m3, m4, hq], by linarith only [u1, u2, u3, u4, v1, v2, v3, v4, w1, w2, w3, w4, z1, z2, z3, z4,
      m1, m2, m3, m4, hq], by linarith only [u1, u2, u3, u4, v1, v2, v3, v4, w1, w2, w3, w4, z1, z2, z3, z4,
      m1, m2, m3, m4, hq]⟩
